import Mathlib

/-!
Verification of the maze-chase core (`src/src/lib.rs`): board parsing,
Theseus/Minotaur movement, status evaluation, tile queries and the
command decoder.  Rust `usize` coordinates are modelled as `Nat`, the
`isize` intermediates in the move routines as `Int` (with the explicit
`< 0` checks of the source), fallible parsing as `Except BoardError`,
and the board text as the list of its lines, each line the list of its
characters (one element per Unicode scalar, matching Rust's
`str::chars`).
-/

namespace Maze

instance {ε α : Type} [DecidableEq ε] [DecidableEq α] :
    DecidableEq (Except ε α) := fun a b =>
  match a, b with
  | .error e, .error f =>
    if h : e = f then .isTrue (by rw [h])
    else .isFalse (by intro hh; cases hh; exact h rfl)
  | .error _, .ok _ => .isFalse (by intro hh; cases hh)
  | .ok _, .error _ => .isFalse (by intro hh; cases hh)
  | .ok x, .ok y =>
    if h : x = y then .isTrue (by rw [h])
    else .isFalse (by intro hh; cases hh; exact h rfl)

/-- `GameStatus` from the source. -/
inductive GameStatus where
  | Win
  | Lose
  | Continue
  deriving DecidableEq, Repr

/-- `BoardError` from the source. -/
inductive BoardError where
  | InvalidCharacter : Char → BoardError
  | InvalidSize
  | NoMinotaur
  | NoTheseus
  | NoGoal
  | MultipleMinotaur
  | MultipleTheseus
  | MultipleGoal
  deriving DecidableEq, Repr

/-- `Grid`: static map; cells hold 'X' = wall, ' ' = empty, 'G' = goal. -/
structure Grid where
  width : Nat
  height : Nat
  cells : List Char
  deriving DecidableEq, Repr

/-- `Grid::in_bounds`. -/
def Grid.in_bounds (g : Grid) (row col : Nat) : Bool :=
  decide (row < g.height) && decide (col < g.width)

/-- `Grid::idx`. -/
def Grid.idx (g : Grid) (row col : Nat) : Option Nat :=
  if g.in_bounds row col then some (row * g.width + col) else none

/-- `Grid::get`.  The Rust body is `self.idx(row, col).map(|i| self.cells[i])`;
the inner indexing `self.cells[i]` panics when `i` is out of range, which we
model by the `none` of `g.cells[i]?` (under the size invariant it never
happens, see `grid_get_total`). -/
def Grid.get (g : Grid) (row col : Nat) : Option Char :=
  (g.idx row col).bind fun i => g.cells[i]?

/-- `Grid::is_wall`. -/
def Grid.is_wall (g : Grid) (row col : Nat) : Bool :=
  g.get row col == some 'X'

/-- `Grid::is_goal`. -/
def Grid.is_goal (g : Grid) (row col : Nat) : Bool :=
  g.get row col == some 'G'

/-- `Grid::is_empty` (`matches!(self.get(row, col), Some(' '))`). -/
def Grid.is_empty (g : Grid) (row col : Nat) : Bool :=
  g.get row col == some ' '

/-- `Game` from the source. -/
structure Game where
  grid : Grid
  theseus_row : Nat
  theseus_col : Nat
  minotaur_row : Nat
  minotaur_col : Nat
  goal_row : Nat
  goal_col : Nat
  deriving DecidableEq, Repr

/-- `Command` from the source. -/
inductive Command where
  | Up
  | Down
  | Left
  | Right
  | Skip
  deriving DecidableEq, Repr

/-- The mutable scan state of `Game::from_board`: the cells pushed so far and
the recorded entity positions. -/
structure ScanState where
  cells : List Char
  t_pos : Option (Nat × Nat)
  m_pos : Option (Nat × Nat)
  g_pos : Option (Nat × Nat)
  deriving DecidableEq, Repr

/-- The inner character loop of `Game::from_board` (`for (c, ch) in
line.chars().enumerate()`), at row `r`, starting at column `c`. -/
def scanChars (r c : Nat) (chars : List Char) (st : ScanState) :
    Except BoardError ScanState :=
  match chars with
  | [] => .ok st
  | ch :: rest =>
    if ch = 'X' then
      scanChars r (c + 1) rest { st with cells := st.cells ++ ['X'] }
    else if ch = 'G' then
      if st.g_pos.isSome then .error .MultipleGoal
      else scanChars r (c + 1) rest
        { st with g_pos := some (r, c), cells := st.cells ++ ['G'] }
    else if ch = 'T' then
      if st.t_pos.isSome then .error .MultipleTheseus
      else scanChars r (c + 1) rest
        { st with t_pos := some (r, c), cells := st.cells ++ [' '] }
    else if ch = 'M' then
      if st.m_pos.isSome then .error .MultipleMinotaur
      else scanChars r (c + 1) rest
        { st with m_pos := some (r, c), cells := st.cells ++ [' '] }
    else if ch = ' ' then
      scanChars r (c + 1) rest { st with cells := st.cells ++ [' '] }
    else .error (.InvalidCharacter ch)

/-- The outer line loop of `Game::from_board` (`for (r, line) in
lines.iter().enumerate()`), starting at row `r`: each line's width is
checked just before that line's characters are scanned. -/
def scanLines (width r : Nat) (ls : List (List Char)) (st : ScanState) :
    Except BoardError ScanState :=
  match ls with
  | [] => .ok st
  | line :: rest =>
    if line.length ≠ width then .error .InvalidSize
    else
      match scanChars r 0 line st with
      | .error e => .error e
      | .ok st' => scanLines width (r + 1) rest st'

/-- `Game::from_board`, over the list of lines of the board text. -/
def Game.from_board (lines : List (List Char)) : Except BoardError Game :=
  if lines.isEmpty then .error .InvalidSize
  else
    let width := (lines.headD []).length
    if width = 0 then .error .InvalidSize
    else
      let height := lines.length
      match scanLines width 0 lines ⟨[], none, none, none⟩ with
      | .error e => .error e
      | .ok st =>
        match st.t_pos with
        | none => .error .NoTheseus
        | some (tr, tc) =>
          match st.m_pos with
          | none => .error .NoMinotaur
          | some (mr, mc) =>
            match st.g_pos with
            | none => .error .NoGoal
            | some (gr, gc) =>
              .ok { grid := ⟨width, height, st.cells⟩,
                    theseus_row := tr, theseus_col := tc,
                    minotaur_row := mr, minotaur_col := mc,
                    goal_row := gr, goal_col := gc }

/-- The `try_move` closure of `Game::minotaur_move`: valid iff non-negative,
within bounds and not a wall. -/
def try_move (g : Game) (r c : Int) : Option (Nat × Nat) :=
  if r < 0 ∨ c < 0 then none
  else
    let r' := r.toNat
    let c' := c.toNat
    if g.grid.in_bounds r' c' && !(g.grid.is_wall r' c') then some (r', c')
    else none

/-- The vertical half of `Game::minotaur_move` (step 2 of the source: the code
falls through to it when no horizontal move was taken). -/
def Game.minotaur_vertical (g : Game) : Game :=
  let ty : Int := g.theseus_row
  let my : Int := g.minotaur_row
  let mx : Int := g.minotaur_col
  if ty < my then
    match try_move g (my - 1) mx with
    | some (nr, nc) => { g with minotaur_row := nr, minotaur_col := nc }
    | none => g
  else if ty > my then
    match try_move g (my + 1) mx with
    | some (nr, nc) => { g with minotaur_row := nr, minotaur_col := nc }
    | none => g
  else g

/-- `Game::minotaur_move`: horizontal attempt first (early return on success),
otherwise the vertical attempt. -/
def Game.minotaur_move (g : Game) : Game :=
  let tx : Int := g.theseus_col
  let mx : Int := g.minotaur_col
  let my : Int := g.minotaur_row
  if tx < mx then
    match try_move g my (mx - 1) with
    | some (nr, nc) => { g with minotaur_row := nr, minotaur_col := nc }
    | none => g.minotaur_vertical
  else if tx > mx then
    match try_move g my (mx + 1) with
    | some (nr, nc) => { g with minotaur_row := nr, minotaur_col := nc }
    | none => g.minotaur_vertical
  else g.minotaur_vertical

/-- `Game::theseus_move`. -/
def Game.theseus_move (g : Game) (command : Command) : Game :=
  let d : Int × Int :=
    match command with
    | .Up => (-1, 0)
    | .Down => (1, 0)
    | .Left => (0, -1)
    | .Right => (0, 1)
    | .Skip => (0, 0)
  let new_r : Int := (g.theseus_row : Int) + d.1
  let new_c : Int := (g.theseus_col : Int) + d.2
  if new_r < 0 ∨ new_c < 0 then g
  else
    let nr := new_r.toNat
    let nc := new_c.toNat
    if g.grid.in_bounds nr nc && !(g.grid.is_wall nr nc) then
      { g with theseus_row := nr, theseus_col := nc }
    else g

/-- `Game::status`. -/
def Game.status (g : Game) : GameStatus :=
  if g.theseus_row = g.minotaur_row ∧ g.theseus_col = g.minotaur_col then
    .Lose
  else if g.theseus_row = g.goal_row ∧ g.theseus_col = g.goal_col then
    .Win
  else .Continue

/-- `Game::is_theseus`. -/
def Game.is_theseus (g : Game) (row col : Nat) : Bool :=
  decide (g.theseus_row = row) && decide (g.theseus_col = col)

/-- `Game::is_minotaur`. -/
def Game.is_minotaur (g : Game) (row col : Nat) : Bool :=
  decide (g.minotaur_row = row) && decide (g.minotaur_col = col)

/-- `Game::is_wall`. -/
def Game.is_wall (g : Game) (row col : Nat) : Bool :=
  g.grid.is_wall row col

/-- `Game::is_goal`. -/
def Game.is_goal (g : Game) (row col : Nat) : Bool :=
  g.grid.is_goal row col

/-- `Game::is_empty`: derived, true when none of the other four hold. -/
def Game.is_empty (g : Game) (row col : Nat) : Bool :=
  !g.is_theseus row col && !g.is_minotaur row col &&
    !g.is_wall row col && !g.is_goal row col

/-- Rust `str::trim` over the characters of the line: strip whitespace from
both ends. -/
def strTrim (s : List Char) : List Char :=
  ((s.dropWhile Char.isWhitespace).reverse.dropWhile Char.isWhitespace).reverse

/-- Rust `str::to_lowercase`, per character (they agree on the ASCII alphabet
the decoder's table uses). -/
def strToLower (s : List Char) : List Char :=
  s.map Char.toLower

/-- `input`: the command decoder.  The `IO` half of the Rust function (reading
one line) is modelled by the `Option (List Char)` argument: `none` is
end-of-stream or a read error, `some l` the characters of a line that was
read.  The body is `line.trim().to_lowercase()` followed by the match table. -/
def input (line : Option (List Char)) : Option Command :=
  match line with
  | none => none
  | some l =>
    let s := strToLower (strTrim l)
    if s = ['w'] ∨ s = ['u', 'p'] then some .Up
    else if s = ['s'] ∨ s = ['d', 'o', 'w', 'n'] then some .Down
    else if s = ['a'] ∨ s = ['l', 'e', 'f', 't'] then some .Left
    else if s = ['d'] ∨ s = ['r', 'i', 'g', 'h', 't'] then some .Right
    else if s = [] ∨ s = ['w', 'a', 'i', 't'] ∨ s = ['s', 'k', 'i', 'p'] ∨
        s = ['.'] then some .Skip
    else none

/-! Specification-side definitions, written from the spec's prose, to be
compared with the source embedding above. -/

/-- The spec's description of `theseus_move`: add the command's unit delta to
the position; if the candidate is out of bounds or on a wall the position is
unchanged, otherwise it becomes the candidate. -/
def theseus_move_spec (g : Game) (command : Command) : Game :=
  let d : Int × Int :=
    match command with
    | .Up => (-1, 0)
    | .Down => (1, 0)
    | .Left => (0, -1)
    | .Right => (0, 1)
    | .Skip => (0, 0)
  let r : Int := (g.theseus_row : Int) + d.1
  let c : Int := (g.theseus_col : Int) + d.2
  if r < 0 ∨ c < 0 ∨ (g.grid.height : Int) ≤ r ∨ (g.grid.width : Int) ≤ c ∨
      g.grid.is_wall r.toNat c.toNat then g
  else { g with theseus_row := r.toNat, theseus_col := c.toNat }

/-- The spec's vertical fallback for the Minotaur: one row step toward
Theseus, taken iff in bounds and not a wall. -/
def minotaur_vertical_spec (g : Game) : Game :=
  if g.theseus_row = g.minotaur_row then g
  else
    let r' := if g.theseus_row < g.minotaur_row then g.minotaur_row - 1
      else g.minotaur_row + 1
    if g.grid.in_bounds r' g.minotaur_col &&
        !(g.grid.is_wall r' g.minotaur_col) then
      { g with minotaur_row := r' }
    else g

/-- The spec's two-axis greedy rule for the Minotaur: a column step toward
Theseus when the columns differ, taken iff in bounds and not a wall; the row
step is attempted only when the columns are equal or the column step was
blocked. -/
def minotaur_move_spec (g : Game) : Game :=
  if g.theseus_col = g.minotaur_col then minotaur_vertical_spec g
  else
    let c' := if g.theseus_col < g.minotaur_col then g.minotaur_col - 1
      else g.minotaur_col + 1
    if g.grid.in_bounds g.minotaur_row c' &&
        !(g.grid.is_wall g.minotaur_row c') then
      { g with minotaur_col := c' }
    else minotaur_vertical_spec g

/-- The spec's decoding table, as a function of the already-normalized
(trimmed, lowercased) line. -/
def decode_spec (s : List Char) : Option Command :=
  if s = ['w'] ∨ s = ['u', 'p'] then some .Up
  else if s = ['s'] ∨ s = ['d', 'o', 'w', 'n'] then some .Down
  else if s = ['a'] ∨ s = ['l', 'e', 'f', 't'] then some .Left
  else if s = ['d'] ∨ s = ['r', 'i', 'g', 'h', 't'] then some .Right
  else if s = [] ∨ s = ['w', 'a', 'i', 't'] ∨ s = ['s', 'k', 'i', 'p'] ∨
      s = ['.'] then some .Skip
  else none

/-! Auxiliary notions used to state and prove parser properties. -/

/-- The board alphabet accepted by the character scan. -/
def validChar (ch : Char) : Prop :=
  ch = 'X' ∨ ch = ' ' ∨ ch = 'G' ∨ ch = 'T' ∨ ch = 'M'

instance : DecidablePred validChar := fun ch => by
  unfold validChar; infer_instance

/-- The cell the scan stores for a given board character: walls and the goal
keep their glyph, everything else (including the `T` and `M` markers) is
stored as plain floor. -/
def cellOf (ch : Char) : Char :=
  if ch = 'X' then 'X' else if ch = 'G' then 'G' else ' '

/-- 1 when an entity position has been recorded, else 0. -/
def countOpt (o : Option (Nat × Nat)) : Nat :=
  if o.isSome then 1 else 0

/-- A recorded entity position points at an in-range cell holding `tile`. -/
def posEntryInv (width : Nat) (cells : List Char) (o : Option (Nat × Nat))
    (tile : Char) : Prop :=
  ∀ pr pc, o = some (pr, pc) → pc < width ∧ pr * width + pc < cells.length ∧
    cells[pr * width + pc]? = some tile

/-- Scan-state invariant: the three recorded positions point at floor, floor
and goal cells respectively. -/
def stInv (width : Nat) (st : ScanState) : Prop :=
  posEntryInv width st.cells st.t_pos ' ' ∧
  posEntryInv width st.cells st.m_pos ' ' ∧
  posEntryInv width st.cells st.g_pos 'G'

/-- The duplicate-marker error reported for a second occurrence of `ch`. -/
def markerDupError (ch : Char) : BoardError :=
  if ch = 'T' then .MultipleTheseus
  else if ch = 'M' then .MultipleMinotaur
  else .MultipleGoal

/-- The Game invariant of the spec: all three positions in bounds, none on a
wall tile. -/
def Game.posInvariant (g : Game) : Prop :=
  g.grid.in_bounds g.theseus_row g.theseus_col = true ∧
  g.grid.is_wall g.theseus_row g.theseus_col = false ∧
  g.grid.in_bounds g.minotaur_row g.minotaur_col = true ∧
  g.grid.is_wall g.minotaur_row g.minotaur_col = false ∧
  g.grid.in_bounds g.goal_row g.goal_col = true ∧
  g.grid.is_wall g.goal_row g.goal_col = false

/-- The game parsed from the one-line board `TMG`. -/
def gameTMG : Game :=
  ⟨⟨3, 1, [' ', ' ', 'G']⟩, 0, 0, 0, 1, 0, 2⟩

/-- A game whose Theseus, Minotaur and Goal positions coincide. -/
def gameCoincide : Game := ⟨⟨1, 1, [' ']⟩, 0, 0, 0, 0, 0, 0⟩

/-- A concrete 2 by 2 grid. -/
def gridW : Grid := ⟨2, 2, ['X', ' ', ' ', 'G']⟩

lemma pos_shift {r c i : Nat} {p : Nat × Nat} (hpi : p = (r, c + 1 + i)) :
    p = (r, c + (i + 1)) := by
  rw [hpi]; congr 1; omega

lemma scanChars_ok_spec (chars : List Char) :
    ∀ (r c : Nat) (st : ScanState),
    (∀ ch ∈ chars, validChar ch) →
    List.count 'T' chars + countOpt st.t_pos ≤ 1 →
    List.count 'M' chars + countOpt st.m_pos ≤ 1 →
    List.count 'G' chars + countOpt st.g_pos ≤ 1 →
    ∃ st', scanChars r c chars st = .ok st' ∧
      st'.cells = st.cells ++ chars.map cellOf ∧
      st'.t_pos.isSome = (st.t_pos.isSome || chars.contains 'T') ∧
      st'.m_pos.isSome = (st.m_pos.isSome || chars.contains 'M') ∧
      st'.g_pos.isSome = (st.g_pos.isSome || chars.contains 'G') ∧
      (∀ p, st'.t_pos = some p →
        st.t_pos = some p ∨ ∃ i, chars[i]? = some 'T' ∧ p = (r, c + i)) ∧
      (∀ p, st'.m_pos = some p →
        st.m_pos = some p ∨ ∃ i, chars[i]? = some 'M' ∧ p = (r, c + i)) ∧
      (∀ p, st'.g_pos = some p →
        st.g_pos = some p ∨ ∃ i, chars[i]? = some 'G' ∧ p = (r, c + i)) := by
  induction chars with
  | nil =>
    intro r c st _ _ _ _
    exact ⟨st, rfl, by simp, by simp, by simp, by simp,
      fun p h => Or.inl h, fun p h => Or.inl h, fun p h => Or.inl h⟩
  | cons ch rest ih =>
    intro r c st hv ht hm hg
    have hvrest : ∀ x ∈ rest, validChar x := fun x hx =>
      hv x (List.mem_cons_of_mem ch hx)
    rcases hv ch (List.mem_cons_self ch rest) with rfl | rfl | rfl | rfl | rfl
    · -- 'X'
      have hstep : scanChars r c ('X' :: rest) st =
          scanChars r (c + 1) rest { st with cells := st.cells ++ ['X'] } := by
        simp [scanChars]
      obtain ⟨st', hok, hcells, hts, hms, hgs, hpt, hpm, hpg⟩ :=
        ih r (c + 1) { st with cells := st.cells ++ ['X'] } hvrest
          (by simpa [List.count_cons] using ht)
          (by simpa [List.count_cons] using hm)
          (by simpa [List.count_cons] using hg)
      refine ⟨st', by rw [hstep]; exact hok, ?_, ?_, ?_, ?_, ?_, ?_, ?_⟩
      · rw [hcells]; simp [cellOf]
      · simpa using hts
      · simpa using hms
      · simpa using hgs
      · intro p hp
        rcases hpt p hp with h | ⟨i, hi, hpi⟩
        · exact Or.inl h
        · exact Or.inr ⟨i + 1, by simpa using hi, pos_shift hpi⟩
      · intro p hp
        rcases hpm p hp with h | ⟨i, hi, hpi⟩
        · exact Or.inl h
        · exact Or.inr ⟨i + 1, by simpa using hi, pos_shift hpi⟩
      · intro p hp
        rcases hpg p hp with h | ⟨i, hi, hpi⟩
        · exact Or.inl h
        · exact Or.inr ⟨i + 1, by simpa using hi, pos_shift hpi⟩
    · -- ' '
      have hstep : scanChars r c (' ' :: rest) st =
          scanChars r (c + 1) rest { st with cells := st.cells ++ [' '] } := by
        simp [scanChars]
      obtain ⟨st', hok, hcells, hts, hms, hgs, hpt, hpm, hpg⟩ :=
        ih r (c + 1) { st with cells := st.cells ++ [' '] } hvrest
          (by simpa [List.count_cons] using ht)
          (by simpa [List.count_cons] using hm)
          (by simpa [List.count_cons] using hg)
      refine ⟨st', by rw [hstep]; exact hok, ?_, ?_, ?_, ?_, ?_, ?_, ?_⟩
      · rw [hcells]; simp [cellOf]
      · simpa using hts
      · simpa using hms
      · simpa using hgs
      · intro p hp
        rcases hpt p hp with h | ⟨i, hi, hpi⟩
        · exact Or.inl h
        · exact Or.inr ⟨i + 1, by simpa using hi, pos_shift hpi⟩
      · intro p hp
        rcases hpm p hp with h | ⟨i, hi, hpi⟩
        · exact Or.inl h
        · exact Or.inr ⟨i + 1, by simpa using hi, pos_shift hpi⟩
      · intro p hp
        rcases hpg p hp with h | ⟨i, hi, hpi⟩
        · exact Or.inl h
        · exact Or.inr ⟨i + 1, by simpa using hi, pos_shift hpi⟩
    · -- 'G'
      have hnone : st.g_pos = none := by
        cases hsg : st.g_pos with
        | none => rfl
        | some v =>
          exfalso
          rw [hsg] at hg
          simp [countOpt, List.count_cons] at hg
      have hstep : scanChars r c ('G' :: rest) st =
          scanChars r (c + 1) rest
            { st with g_pos := some (r, c), cells := st.cells ++ ['G'] } := by
        simp [scanChars, hnone]
      obtain ⟨st', hok, hcells, hts, hms, hgs, hpt, hpm, hpg⟩ :=
        ih r (c + 1) { st with g_pos := some (r, c), cells := st.cells ++ ['G'] }
          hvrest
          (by simpa [List.count_cons] using ht)
          (by simpa [List.count_cons] using hm)
          (by simp only [countOpt, List.count_cons, hnone] at hg ⊢
              simp at hg ⊢
              omega)
      refine ⟨st', by rw [hstep]; exact hok, ?_, ?_, ?_, ?_, ?_, ?_, ?_⟩
      · rw [hcells]; simp [cellOf]
      · simpa using hts
      · simpa using hms
      · rw [hgs]; simp [hnone]
      · intro p hp
        rcases hpt p hp with h | ⟨i, hi, hpi⟩
        · exact Or.inl h
        · exact Or.inr ⟨i + 1, by simpa using hi, pos_shift hpi⟩
      · intro p hp
        rcases hpm p hp with h | ⟨i, hi, hpi⟩
        · exact Or.inl h
        · exact Or.inr ⟨i + 1, by simpa using hi, pos_shift hpi⟩
      · intro p hp
        rcases hpg p hp with h | ⟨i, hi, hpi⟩
        · have hpc : p = (r, c) := by simpa using h.symm
          exact Or.inr ⟨0, by simp, by simp [hpc]⟩
        · exact Or.inr ⟨i + 1, by simpa using hi, pos_shift hpi⟩
    · -- 'T'
      have hnone : st.t_pos = none := by
        cases hsg : st.t_pos with
        | none => rfl
        | some v =>
          exfalso
          rw [hsg] at ht
          simp [countOpt, List.count_cons] at ht
      have hstep : scanChars r c ('T' :: rest) st =
          scanChars r (c + 1) rest
            { st with t_pos := some (r, c), cells := st.cells ++ [' '] } := by
        simp [scanChars, hnone]
      obtain ⟨st', hok, hcells, hts, hms, hgs, hpt, hpm, hpg⟩ :=
        ih r (c + 1) { st with t_pos := some (r, c), cells := st.cells ++ [' '] }
          hvrest
          (by simp only [countOpt, List.count_cons, hnone] at ht ⊢
              simp at ht ⊢
              omega)
          (by simpa [List.count_cons] using hm)
          (by simpa [List.count_cons] using hg)
      refine ⟨st', by rw [hstep]; exact hok, ?_, ?_, ?_, ?_, ?_, ?_, ?_⟩
      · rw [hcells]; simp [cellOf]
      · rw [hts]; simp [hnone]
      · simpa using hms
      · simpa using hgs
      · intro p hp
        rcases hpt p hp with h | ⟨i, hi, hpi⟩
        · have hpc : p = (r, c) := by simpa using h.symm
          exact Or.inr ⟨0, by simp, by simp [hpc]⟩
        · exact Or.inr ⟨i + 1, by simpa using hi, pos_shift hpi⟩
      · intro p hp
        rcases hpm p hp with h | ⟨i, hi, hpi⟩
        · exact Or.inl h
        · exact Or.inr ⟨i + 1, by simpa using hi, pos_shift hpi⟩
      · intro p hp
        rcases hpg p hp with h | ⟨i, hi, hpi⟩
        · exact Or.inl h
        · exact Or.inr ⟨i + 1, by simpa using hi, pos_shift hpi⟩
    · -- 'M'
      have hnone : st.m_pos = none := by
        cases hsg : st.m_pos with
        | none => rfl
        | some v =>
          exfalso
          rw [hsg] at hm
          simp [countOpt, List.count_cons] at hm
      have hstep : scanChars r c ('M' :: rest) st =
          scanChars r (c + 1) rest
            { st with m_pos := some (r, c), cells := st.cells ++ [' '] } := by
        simp [scanChars, hnone]
      obtain ⟨st', hok, hcells, hts, hms, hgs, hpt, hpm, hpg⟩ :=
        ih r (c + 1) { st with m_pos := some (r, c), cells := st.cells ++ [' '] }
          hvrest
          (by simpa [List.count_cons] using ht)
          (by simp only [countOpt, List.count_cons, hnone] at hm ⊢
              simp at hm ⊢
              omega)
          (by simpa [List.count_cons] using hg)
      refine ⟨st', by rw [hstep]; exact hok, ?_, ?_, ?_, ?_, ?_, ?_, ?_⟩
      · rw [hcells]; simp [cellOf]
      · simpa using hts
      · rw [hms]; simp [hnone]
      · simpa using hgs
      · intro p hp
        rcases hpt p hp with h | ⟨i, hi, hpi⟩
        · exact Or.inl h
        · exact Or.inr ⟨i + 1, by simpa using hi, pos_shift hpi⟩
      · intro p hp
        rcases hpm p hp with h | ⟨i, hi, hpi⟩
        · have hpc : p = (r, c) := by simpa using h.symm
          exact Or.inr ⟨0, by simp, by simp [hpc]⟩
        · exact Or.inr ⟨i + 1, by simpa using hi, pos_shift hpi⟩
      · intro p hp
        rcases hpg p hp with h | ⟨i, hi, hpi⟩
        · exact Or.inl h
        · exact Or.inr ⟨i + 1, by simpa using hi, pos_shift hpi⟩

lemma contains_one_le_count {l : List Char} {a : Char}
    (h : l.contains a = true) : 1 ≤ List.count a l := by
  have ha : a ∈ l := by simpa using h
  exact List.count_pos_iff.mpr ha

lemma scanLines_ok_spec (ls : List (List Char)) :
    ∀ (width r : Nat) (st : ScanState),
    (∀ l ∈ ls, l.length = width) →
    (∀ l ∈ ls, ∀ ch ∈ l, validChar ch) →
    (ls.map (List.count 'T')).sum + countOpt st.t_pos ≤ 1 →
    (ls.map (List.count 'M')).sum + countOpt st.m_pos ≤ 1 →
    (ls.map (List.count 'G')).sum + countOpt st.g_pos ≤ 1 →
    ∃ st', scanLines width r ls st = .ok st' ∧
      st'.cells = st.cells ++ (ls.map (List.map cellOf)).flatten ∧
      st'.t_pos.isSome = (st.t_pos.isSome || ls.any (·.contains 'T')) ∧
      st'.m_pos.isSome = (st.m_pos.isSome || ls.any (·.contains 'M')) ∧
      st'.g_pos.isSome = (st.g_pos.isSome || ls.any (·.contains 'G')) ∧
      (∀ p, st'.t_pos = some p → st.t_pos = some p ∨
        ∃ i l, ls[i]? = some l ∧ l[p.2]? = some 'T' ∧ p.1 = r + i) ∧
      (∀ p, st'.m_pos = some p → st.m_pos = some p ∨
        ∃ i l, ls[i]? = some l ∧ l[p.2]? = some 'M' ∧ p.1 = r + i) ∧
      (∀ p, st'.g_pos = some p → st.g_pos = some p ∨
        ∃ i l, ls[i]? = some l ∧ l[p.2]? = some 'G' ∧ p.1 = r + i) := by
  induction ls with
  | nil =>
    intro width r st _ _ _ _ _
    exact ⟨st, rfl, by simp, by simp, by simp, by simp,
      fun p h => Or.inl h, fun p h => Or.inl h, fun p h => Or.inl h⟩
  | cons l rest ih =>
    intro width r st hw hv ht hm hg
    have hwl : l.length = width := hw l (List.mem_cons_self l rest)
    have hsum : ∀ mark : Char,
        ((l :: rest).map (List.count mark)).sum =
          List.count mark l + (rest.map (List.count mark)).sum := by
      intro mark; simp
    obtain ⟨st1, hok1, hcells1, hts1, hms1, hgs1, hpt1, hpm1, hpg1⟩ :=
      scanChars_ok_spec l r 0 st
        (hv l (List.mem_cons_self l rest))
        (by rw [hsum] at ht; omega)
        (by rw [hsum] at hm; omega)
        (by rw [hsum] at hg; omega)
    have hco : ∀ (mark : Char) (o o1 : Option (Nat × Nat)),
        o1.isSome = (o.isSome || l.contains mark) →
        countOpt o1 ≤ countOpt o + List.count mark l := by
      intro mark o o1 h1
      unfold countOpt
      by_cases hc : mark ∈ l
      · have h2 := List.count_pos_iff.mpr hc
        split <;> split <;> omega
      · have hcf : l.contains mark = false := by simpa using hc
        rw [hcf] at h1
        simp at h1
        rw [h1]
        split <;> omega
    obtain ⟨st', hok, hcells, hts, hms, hgs, hpt, hpm, hpg⟩ :=
      ih width (r + 1) st1
        (fun x hx => hw x (List.mem_cons_of_mem l hx))
        (fun x hx => hv x (List.mem_cons_of_mem l hx))
        (by have := hco 'T' st.t_pos st1.t_pos hts1; rw [hsum] at ht; omega)
        (by have := hco 'M' st.m_pos st1.m_pos hms1; rw [hsum] at hm; omega)
        (by have := hco 'G' st.g_pos st1.g_pos hgs1; rw [hsum] at hg; omega)
    have hstep : scanLines width r (l :: rest) st = scanLines width (r + 1) rest st1 := by
      simp [scanLines, hwl, hok1]
    refine ⟨st', by rw [hstep]; exact hok, ?_, ?_, ?_, ?_, ?_, ?_, ?_⟩
    · rw [hcells, hcells1]; simp
    · rw [hts, hts1]; simp [Bool.or_assoc]
    · rw [hms, hms1]; simp [Bool.or_assoc]
    · rw [hgs, hgs1]; simp [Bool.or_assoc]
    · intro p hp
      rcases hpt p hp with h1 | ⟨i, li, hli, hlp, hpi⟩
      · rcases hpt1 p h1 with h2 | ⟨j, hj, hpj⟩
        · exact Or.inl h2
        · refine Or.inr ⟨0, l, by simp, ?_, by simp [hpj]⟩
          rw [hpj]; simpa using hj
      · exact Or.inr ⟨i + 1, li, by simpa using hli, hlp, by omega⟩
    · intro p hp
      rcases hpm p hp with h1 | ⟨i, li, hli, hlp, hpi⟩
      · rcases hpm1 p h1 with h2 | ⟨j, hj, hpj⟩
        · exact Or.inl h2
        · refine Or.inr ⟨0, l, by simp, ?_, by simp [hpj]⟩
          rw [hpj]; simpa using hj
      · exact Or.inr ⟨i + 1, li, by simpa using hli, hlp, by omega⟩
    · intro p hp
      rcases hpg p hp with h1 | ⟨i, li, hli, hlp, hpi⟩
      · rcases hpg1 p h1 with h2 | ⟨j, hj, hpj⟩
        · exact Or.inl h2
        · refine Or.inr ⟨0, l, by simp, ?_, by simp [hpj]⟩
          rw [hpj]; simpa using hj
      · exact Or.inr ⟨i + 1, li, by simpa using hli, hlp, by omega⟩

lemma flatten_map_getElem (ls : List (List Char)) (width : Nat)
    (hw : ∀ l ∈ ls, l.length = width) :
    ∀ (i j : Nat) (l : List Char), ls[i]? = some l → j < width →
    ((ls.map (List.map cellOf)).flatten)[i * width + j]? = (l[j]?).map cellOf := by
  induction ls with
  | nil => intro i j l h _; simp at h
  | cons a rest ih =>
    intro i j l hli hj
    have hlen : (a.map cellOf).length = width := by
      simp [hw a (List.mem_cons_self a rest)]
    cases i with
    | zero =>
      simp only [List.getElem?_cons_zero, Option.some.injEq] at hli
      subst hli
      simp only [List.map_cons, List.flatten_cons, Nat.zero_mul, Nat.zero_add]
      rw [List.getElem?_append_left (by rw [hlen]; exact hj)]
      simp
    | succ i' =>
      simp only [List.getElem?_cons_succ] at hli
      have hidx : (i' + 1) * width + j = (a.map cellOf).length + (i' * width + j) := by
        rw [hlen, Nat.succ_mul]; omega
      rw [List.map_cons, List.flatten_cons, hidx,
        List.getElem?_append_right (Nat.le_add_right _ _)]
      rw [Nat.add_sub_cancel_left]
      exact ih (fun x hx => hw x (List.mem_cons_of_mem a hx)) i' j l hli hj

lemma any_contains_iff_sum_pos (ls : List (List Char)) (mark : Char) :
    ls.any (·.contains mark) = true ↔ 0 < (ls.map (List.count mark)).sum := by
  induction ls with
  | nil => simp
  | cons a rest ih =>
    simp only [List.any_cons, Bool.or_eq_true, List.map_cons, List.sum_cons]
    constructor
    · rintro (h | h)
      · have := contains_one_le_count h
        omega
      · have := ih.mp h
        omega
    · intro h
      by_cases hca : a.contains mark = true
      · exact Or.inl hca
      · refine Or.inr (ih.mpr ?_)
        have hz : List.count mark a = 0 := List.count_eq_zero.mpr (by simpa using hca)
        omega

lemma mem_of_getElem? {ls : List (List Char)} {i : Nat} {l : List Char}
    (h : ls[i]? = some l) : l ∈ ls := by
  rw [List.getElem?_eq_some] at h
  obtain ⟨hi, rfl⟩ := h
  exact List.getElem_mem hi

lemma count_flatten (ls : List (List Char)) (a : Char) :
    List.count a ls.flatten = (ls.map (List.count a)).sum := by
  induction ls with
  | nil => simp
  | cons l rest ih => simp [List.count_append, ih]

lemma scanChars_cons (r c : Nat) (ch : Char) (tl : List Char)
    (st : ScanState) :
    scanChars r c (ch :: tl) st =
      if ch = 'X' then
        scanChars r (c + 1) tl { st with cells := st.cells ++ ['X'] }
      else if ch = 'G' then
        if st.g_pos.isSome then .error .MultipleGoal
        else scanChars r (c + 1) tl
          { st with g_pos := some (r, c), cells := st.cells ++ ['G'] }
      else if ch = 'T' then
        if st.t_pos.isSome then .error .MultipleTheseus
        else scanChars r (c + 1) tl
          { st with t_pos := some (r, c), cells := st.cells ++ [' '] }
      else if ch = 'M' then
        if st.m_pos.isSome then .error .MultipleMinotaur
        else scanChars r (c + 1) tl
          { st with m_pos := some (r, c), cells := st.cells ++ [' '] }
      else if ch = ' ' then
        scanChars r (c + 1) tl { st with cells := st.cells ++ [' '] }
      else .error (.InvalidCharacter ch) := rfl

lemma scanLines_cons (width r : Nat) (l : List Char) (tl : List (List Char))
    (st : ScanState) :
    scanLines width r (l :: tl) st =
      if l.length ≠ width then .error .InvalidSize
      else
        match scanChars r 0 l st with
        | .error e => .error e
        | .ok st' => scanLines width (r + 1) tl st' := rfl

lemma scanChars_append (xs ys : List Char) :
    ∀ (r c : Nat) (st : ScanState),
    scanChars r c (xs ++ ys) st =
      match scanChars r c xs st with
      | .error e => .error e
      | .ok st1 => scanChars r (c + xs.length) ys st1 := by
  induction xs with
  | nil => intro r c st; simp [scanChars]
  | cons ch rest ih =>
    intro r c st
    rw [List.cons_append, scanChars_cons, scanChars_cons]
    simp only [List.length_cons]
    split_ifs <;>
      first
      | rfl
      | (rw [ih]
         simp only [show c + 1 + rest.length = c + (rest.length + 1) from
           by omega])

lemma scanLines_append (xs ys : List (List Char)) :
    ∀ (width r : Nat) (st : ScanState),
    scanLines width r (xs ++ ys) st =
      match scanLines width r xs st with
      | .error e => .error e
      | .ok st1 => scanLines width (r + xs.length) ys st1 := by
  induction xs with
  | nil => intro width r st; simp [scanLines]
  | cons l rest ih =>
    intro width r st
    rw [List.cons_append, scanLines_cons, scanLines_cons]
    simp only [List.length_cons]
    split_ifs
    · rfl
    · rcases hsc : scanChars r 0 l st with e | st1
      · rfl
      · show scanLines width (r + 1) (rest ++ ys) st1 = _
        rw [ih]
        simp only [show r + 1 + rest.length = r + (rest.length + 1) from
          by omega]

lemma push_entry (cells : List Char) (x : Char) :
    (cells ++ [x])[cells.length]? = some x := by
  rw [List.getElem?_append_right (Nat.le_refl _)]
  simp

lemma posEntryInv_push {width : Nat} {cells : List Char}
    {o : Option (Nat × Nat)} {tile : Char} (x : Char)
    (h : posEntryInv width cells o tile) :
    posEntryInv width (cells ++ [x]) o tile := by
  intro pr pc hp
  obtain ⟨h1, h2, h3⟩ := h pr pc hp
  refine ⟨h1, by simp; omega, ?_⟩
  rw [List.getElem?_append_left h2]
  exact h3

lemma posEntryInv_new {width : Nat} {cells : List Char} (tile : Char)
    {r c : Nat} (hc : c < width) (hlen : r * width + c = cells.length) :
    posEntryInv width (cells ++ [tile]) (some (r, c)) tile := by
  intro pr pc hp
  have h1 : r = pr ∧ c = pc := by simpa [Prod.ext_iff] using hp
  obtain ⟨rfl, rfl⟩ := h1
  refine ⟨hc, by simp; omega, ?_⟩
  rw [hlen]
  exact push_entry cells tile

lemma scanChars_inv (chars : List Char) :
    ∀ (width r c : Nat) (st st' : ScanState),
    scanChars r c chars st = .ok st' →
    c + chars.length = width →
    st.cells.length = r * width + c →
    stInv width st →
    st'.cells.length = r * width + width ∧ stInv width st' := by
  induction chars with
  | nil =>
    intro width r c st st' h hcw hlen hI
    cases h
    refine ⟨?_, hI⟩
    simp at hcw
    omega
  | cons ch rest ih =>
    intro width r c st st' h hcw hlen hI
    obtain ⟨hIt, hIm, hIg⟩ := hI
    have hclt : c < width := by
      simp only [List.length_cons] at hcw
      omega
    have hcw' : c + 1 + rest.length = width := by
      simp only [List.length_cons] at hcw
      omega
    by_cases hX : ch = 'X'
    · subst hX
      simp only [scanChars, reduceIte] at h
      exact ih width r (c + 1) _ st' h hcw' (by simp [hlen]; omega)
        ⟨posEntryInv_push _ hIt, posEntryInv_push _ hIm, posEntryInv_push _ hIg⟩
    · by_cases hG : ch = 'G'
      · subst hG
        rcases hsg : st.g_pos with _ | v
        · simp only [scanChars, reduceIte, hsg, Option.isSome_none,
            Bool.false_eq_true, if_false] at h
          refine ih width r (c + 1) _ st' h hcw' (by simp [hlen]; omega)
            ⟨posEntryInv_push _ hIt, posEntryInv_push _ hIm, ?_⟩
          exact posEntryInv_new 'G' hclt hlen.symm
        · simp [scanChars, hsg] at h
      · by_cases hT : ch = 'T'
        · subst hT
          rcases hst : st.t_pos with _ | v
          · simp only [scanChars, reduceIte, hst, Option.isSome_none,
              Bool.false_eq_true, if_false] at h
            refine ih width r (c + 1) _ st' h hcw' (by simp [hlen]; omega)
              ⟨?_, posEntryInv_push _ hIm, posEntryInv_push _ hIg⟩
            exact posEntryInv_new ' ' hclt hlen.symm
          · simp [scanChars, hst] at h
        · by_cases hM : ch = 'M'
          · subst hM
            rcases hsm : st.m_pos with _ | v
            · simp only [scanChars, reduceIte, hsm, Option.isSome_none,
                Bool.false_eq_true, if_false] at h
              refine ih width r (c + 1) _ st' h hcw' (by simp [hlen]; omega)
                ⟨posEntryInv_push _ hIt, ?_, posEntryInv_push _ hIg⟩
              exact posEntryInv_new ' ' hclt hlen.symm
            · simp [scanChars, hsm] at h
          · by_cases hS : ch = ' '
            · subst hS
              simp only [scanChars, reduceIte] at h
              exact ih width r (c + 1) _ st' h hcw' (by simp [hlen]; omega)
                ⟨posEntryInv_push _ hIt, posEntryInv_push _ hIm,
                  posEntryInv_push _ hIg⟩
            · simp [scanChars, hX, hG, hT, hM, hS] at h

lemma scanLines_inv (ls : List (List Char)) :
    ∀ (width r : Nat) (st st' : ScanState),
    scanLines width r ls st = .ok st' →
    st.cells.length = r * width →
    stInv width st →
    st'.cells.length = (r + ls.length) * width ∧ stInv width st' := by
  induction ls with
  | nil =>
    intro width r st st' h hlen hI
    cases h
    exact ⟨by simpa using hlen, hI⟩
  | cons l rest ih =>
    intro width r st st' h hlen hI
    by_cases hwl : l.length = width
    · rcases hsc : scanChars r 0 l st with e | st1
      · simp [scanLines, hwl, hsc] at h
      · simp only [scanLines, hwl, ne_eq, not_true_eq_false, if_false,
          reduceIte, hsc] at h
        obtain ⟨hlen1, hI1⟩ := scanChars_inv l width r 0 st st1 hsc
          (by omega) (by simpa using hlen) hI
        obtain ⟨hfin, hIfin⟩ := ih width (r + 1) st1 st' h
          (by rw [Nat.succ_mul]; exact hlen1) hI1
        refine ⟨?_, hIfin⟩
        have heq : r + 1 + rest.length = r + (rest.length + 1) := by omega
        rw [List.length_cons, ← heq]
        exact hfin
    · simp [scanLines, hwl] at h

lemma from_board_posInvariant (ls : List (List Char)) (g : Game)
    (h : Game.from_board ls = .ok g) : g.posInvariant := by
  simp only [Game.from_board] at h
  split at h
  · exact absurd h (by simp)
  · split at h
    · exact absurd h (by simp)
    · rename_i hwne
      split at h
      · exact absurd h (by simp)
      · rename_i st hscan
        split at h
        · exact absurd h (by simp)
        · rename_i tpos tr tc htpos
          split at h
          · exact absurd h (by simp)
          · rename_i mpos mr mc hmpos
            split at h
            · exact absurd h (by simp)
            · rename_i gpos gr gc hgpos
              obtain ⟨hlen, hIt, hIm, hIg⟩ :=
                scanLines_inv ls ((ls.headD []).length) 0 _ st hscan
                  (by simp)
                  ⟨(by intro pr pc hp; cases hp), (by intro pr pc hp; cases hp),
                    (by intro pr pc hp; cases hp)⟩
              simp only [Except.ok.injEq] at h
              subst h
              have hwpos : 0 < (ls.headD []).length := by omega
              have hbound : ∀ pr pc : Nat,
                  pc < (ls.headD []).length →
                  pr * (ls.headD []).length + pc < st.cells.length →
                  pr < ls.length := by
                intro pr pc hpc hidx
                by_contra hge
                push_neg at hge
                have h2 : ls.length * (ls.headD []).length ≤
                    pr * (ls.headD []).length :=
                  Nat.mul_le_mul_right _ hge
                rw [hlen] at hidx
                simp only [Nat.zero_add] at hidx
                omega
              obtain ⟨htc, htidx, htcell⟩ := hIt tr tc htpos
              obtain ⟨hmc, hmidx, hmcell⟩ := hIm mr mc hmpos
              obtain ⟨hgc, hgidx, hgcell⟩ := hIg gr gc hgpos
              have htr := hbound tr tc htc htidx
              have hmr := hbound mr mc hmc hmidx
              have hgr := hbound gr gc hgc hgidx
              have hib : ∀ pr pc : Nat, pr < ls.length →
                  pc < (ls.headD []).length →
                  (⟨(ls.headD []).length, ls.length, st.cells⟩ : Grid).in_bounds
                    pr pc = true := by
                intro pr pc hr hc
                simp only [Grid.in_bounds, Bool.and_eq_true, decide_eq_true_eq]
                exact ⟨hr, hc⟩
              have hwall : ∀ (pr pc : Nat) (t : Char),
                  st.cells[pr * (ls.headD []).length + pc]? = some t →
                  t ≠ 'X' →
                  (⟨(ls.headD []).length, ls.length, st.cells⟩ : Grid).in_bounds
                    pr pc = true →
                  (⟨(ls.headD []).length, ls.length, st.cells⟩ : Grid).is_wall
                    pr pc = false := by
                intro pr pc t hcell htx hb
                simp only [Grid.is_wall, Grid.get, Grid.idx, hb, if_true,
                  Option.some_bind, hcell]
                simp [htx]
              exact ⟨hib tr tc htr htc,
                hwall tr tc ' ' htcell (by decide) (hib tr tc htr htc),
                hib mr mc hmr hmc,
                hwall mr mc ' ' hmcell (by decide) (hib mr mc hmr hmc),
                hib gr gc hgr hgc,
                hwall gr gc 'G' hgcell (by decide) (hib gr gc hgr hgc)⟩

lemma theseus_move_posInvariant (g : Game) (cmd : Command)
    (hI : g.posInvariant) : (g.theseus_move cmd).posInvariant := by
  obtain ⟨h1, h2, h3, h4, h5, h6⟩ := hI
  cases cmd <;>
  · simp only [Game.theseus_move]
    split_ifs with hA hB
    · exact ⟨h1, h2, h3, h4, h5, h6⟩
    · simp only [Bool.and_eq_true, Bool.not_eq_true'] at hB
      exact ⟨hB.1, hB.2, h3, h4, h5, h6⟩
    · exact ⟨h1, h2, h3, h4, h5, h6⟩

lemma try_move_sound (g : Game) (r c : Int) (nr nc : Nat)
    (h : try_move g r c = some (nr, nc)) :
    g.grid.in_bounds nr nc = true ∧ g.grid.is_wall nr nc = false := by
  simp only [try_move] at h
  split at h
  · cases h
  · split at h
    · rename_i hcond
      simp only [Bool.and_eq_true, Bool.not_eq_true'] at hcond
      have hp : r.toNat = nr ∧ c.toNat = nc := by simpa [Prod.ext_iff] using h
      obtain ⟨rfl, rfl⟩ := hp
      exact hcond
    · cases h

lemma minotaur_vertical_posInvariant (g : Game) (hI : g.posInvariant) :
    g.minotaur_vertical.posInvariant := by
  obtain ⟨h1, h2, h3, h4, h5, h6⟩ := hI
  simp only [Game.minotaur_vertical]
  split
  · split
    · rename_i nr nc heq
      obtain ⟨hb, hw⟩ := try_move_sound _ _ _ _ _ heq
      exact ⟨h1, h2, hb, hw, h5, h6⟩
    · exact ⟨h1, h2, h3, h4, h5, h6⟩
  · split
    · split
      · rename_i nr nc heq
        obtain ⟨hb, hw⟩ := try_move_sound _ _ _ _ _ heq
        exact ⟨h1, h2, hb, hw, h5, h6⟩
      · exact ⟨h1, h2, h3, h4, h5, h6⟩
    · exact ⟨h1, h2, h3, h4, h5, h6⟩

lemma minotaur_move_posInvariant (g : Game) (hI : g.posInvariant) :
    g.minotaur_move.posInvariant := by
  have hvert := minotaur_vertical_posInvariant g hI
  obtain ⟨h1, h2, h3, h4, h5, h6⟩ := hI
  simp only [Game.minotaur_move]
  split
  · split
    · rename_i nr nc heq
      obtain ⟨hb, hw⟩ := try_move_sound _ _ _ _ _ heq
      exact ⟨h1, h2, hb, hw, h5, h6⟩
    · exact hvert
  · split
    · split
      · rename_i nr nc heq
        obtain ⟨hb, hw⟩ := try_move_sound _ _ _ _ _ heq
        exact ⟨h1, h2, hb, hw, h5, h6⟩
      · exact hvert
    · exact hvert

lemma from_board_error_of_scanLines (ls : List (List Char)) (e : BoardError)
    (hne : ls ≠ []) (hw : ¬((ls.headD []).length = 0))
    (h : scanLines (ls.headD []).length 0 ls ⟨[], none, none, none⟩ =
      .error e) :
    Game.from_board ls = .error e := by
  simp only [Game.from_board]
  rw [if_neg (by simpa using hne), if_neg hw, h]

lemma from_board_duplicate (pre : List (List Char)) (row rest : List Char)
    (post : List (List Char)) (m : Char)
    (hm3 : m = 'T' ∨ m = 'M' ∨ m = 'G')
    (hpre : ∀ l ∈ pre, l.length = row.length + 1 + rest.length)
    (hv : ∀ ch ∈ pre.flatten ++ row, validChar ch)
    (hcm : List.count m (pre.flatten ++ row) = 1)
    (hct : List.count 'T' (pre.flatten ++ row) ≤ 1)
    (hcmm : List.count 'M' (pre.flatten ++ row) ≤ 1)
    (hcg : List.count 'G' (pre.flatten ++ row) ≤ 1) :
    Game.from_board (pre ++ (row ++ m :: rest) :: post) =
      .error (markerDupError m) := by
  have hW : ((pre ++ (row ++ m :: rest) :: post).headD []).length =
      row.length + 1 + rest.length := by
    cases pre with
    | nil => simp; omega
    | cons a pre' => simpa using hpre a (List.mem_cons_self a pre')
  have hvpre : ∀ l ∈ pre, ∀ ch ∈ l, validChar ch := by
    intro l hl ch hch
    exact hv ch (List.mem_append_left _ (List.mem_flatten.mpr ⟨l, hl, hch⟩))
  have hsum : ∀ x : Char, (pre.map (List.count x)).sum + List.count x row =
      List.count x (pre.flatten ++ row) := by
    intro x
    rw [List.count_append, count_flatten]
  obtain ⟨st1, hok1, hc1, hts1, hms1, hgs1, hp1, hp2, hp3⟩ :=
    scanLines_ok_spec pre (row.length + 1 + rest.length) 0 ⟨[], none, none, none⟩
      hpre hvpre
      (by have := hsum 'T'; simp only [countOpt, Option.isSome_none]; simp; omega)
      (by have := hsum 'M'; simp only [countOpt, Option.isSome_none]; simp; omega)
      (by have := hsum 'G'; simp only [countOpt, Option.isSome_none]; simp; omega)
  simp only [Option.isSome_none, Bool.false_or] at hts1 hms1 hgs1
  have hcopt : ∀ (x : Char) (o : Option (Nat × Nat)),
      o.isSome = pre.any (·.contains x) →
      countOpt o ≤ (pre.map (List.count x)).sum := by
    intro x o ho
    unfold countOpt
    rw [ho]
    rcases hany : pre.any (·.contains x) with _ | _
    · simp
    · have := (any_contains_iff_sum_pos pre x).mp hany
      simp
      omega
  obtain ⟨st2, hok2, hc2, hts2, hms2, hgs2, hq1, hq2, hq3⟩ :=
    scanChars_ok_spec row (0 + pre.length) 0 st1
      (fun ch hch => hv ch (List.mem_append_right _ hch))
      (by have := hcopt 'T' st1.t_pos hts1; have := hsum 'T'; omega)
      (by have := hcopt 'M' st1.m_pos hms1; have := hsum 'M'; omega)
      (by have := hcopt 'G' st1.g_pos hgs1; have := hsum 'G'; omega)
  have hsome2 : ∀ (x : Char) (b1 b2 : Bool), b1 = pre.any (·.contains x) →
      b2 = (b1 || row.contains x) →
      List.count x (pre.flatten ++ row) = 1 → b2 = true := by
    intro x b1 b2 h1 h2 hcx
    rw [List.count_append, count_flatten] at hcx
    subst h2
    rcases hrow : row.contains x with _ | _
    · have hz : List.count x row = 0 :=
        List.count_eq_zero.mpr (by simpa using hrow)
      have hpos : 0 < (pre.map (List.count x)).sum := by omega
      rw [h1, (any_contains_iff_sum_pos pre x).mpr hpos]
      simp
    · simp [hrow]
  have hlenrow : (row ++ m :: rest).length = row.length + 1 + rest.length := by
    simp
    omega
  have hstep3 : scanChars (0 + pre.length) 0 (row ++ m :: rest) st1 =
      .error (markerDupError m) := by
    rw [scanChars_append, hok2]
    show scanChars (0 + pre.length) (0 + row.length) (m :: rest) st2 = _
    rcases hm3 with rfl | rfl | rfl
    · have hb := hsome2 'T' st1.t_pos.isSome st2.t_pos.isSome hts1 hts2 hcm
      rw [scanChars_cons]
      simp [hb, markerDupError]
    · have hb := hsome2 'M' st1.m_pos.isSome st2.m_pos.isSome hms1 hms2 hcm
      rw [scanChars_cons]
      simp [hb, markerDupError]
    · have hb := hsome2 'G' st1.g_pos.isSome st2.g_pos.isSome hgs1 hgs2 hcm
      rw [scanChars_cons]
      simp [hb, markerDupError]
  have hscan : scanLines (row.length + 1 + rest.length) 0
      (pre ++ (row ++ m :: rest) :: post) ⟨[], none, none, none⟩ =
      .error (markerDupError m) := by
    rw [scanLines_append, hok1]
    show scanLines (row.length + 1 + rest.length) (0 + pre.length)
      ((row ++ m :: rest) :: post) st1 = _
    rw [scanLines_cons, if_neg (by rw [hlenrow]; simp), hstep3]
  exact from_board_error_of_scanLines _ _
    (by cases pre <;> simp) (by rw [hW]; omega) (by rw [hW]; exact hscan)

lemma from_board_missing (ls : List (List Char))
    (hne : ls ≠ [])
    (hrect : ∀ l ∈ ls, l.length = (ls.headD []).length)
    (hwpos : 0 < (ls.headD []).length)
    (hv : ∀ l ∈ ls, ∀ ch ∈ l, validChar ch)
    (hct : (ls.map (List.count 'T')).sum ≤ 1)
    (hcm : (ls.map (List.count 'M')).sum ≤ 1)
    (hcg : (ls.map (List.count 'G')).sum ≤ 1) :
    ((ls.map (List.count 'T')).sum = 0 →
      Game.from_board ls = .error .NoTheseus) ∧
    ((ls.map (List.count 'T')).sum = 1 → (ls.map (List.count 'M')).sum = 0 →
      Game.from_board ls = .error .NoMinotaur) ∧
    ((ls.map (List.count 'T')).sum = 1 → (ls.map (List.count 'M')).sum = 1 →
      (ls.map (List.count 'G')).sum = 0 →
      Game.from_board ls = .error .NoGoal) := by
  obtain ⟨st', hok, hcells, hts, hms, hgs, hpt, hpm, hpg⟩ :=
    scanLines_ok_spec ls ((ls.headD []).length) 0 ⟨[], none, none, none⟩
      hrect hv (by simp [countOpt]; omega) (by simp [countOpt]; omega)
      (by simp [countOpt]; omega)
  simp only [Option.isSome_none, Bool.false_or] at hts hms hgs
  have hzero : ∀ (x : Char) (o : Option (Nat × Nat)),
      o.isSome = ls.any (·.contains x) → (ls.map (List.count x)).sum = 0 →
      o = none := by
    intro x o ho hs
    have hany : ls.any (·.contains x) = false := by
      rcases h2 : ls.any (·.contains x) with _ | _
      · rfl
      · have := (any_contains_iff_sum_pos ls x).mp h2
        omega
    rw [hany] at ho
    exact Option.not_isSome_iff_eq_none.mp (by simp [ho])
  have hsome : ∀ (x : Char) (o : Option (Nat × Nat)),
      o.isSome = ls.any (·.contains x) → (ls.map (List.count x)).sum = 1 →
      ∃ p, o = some p := by
    intro x o ho hs
    have htrue : o.isSome = true := by
      rw [ho, (any_contains_iff_sum_pos ls x).mpr (by omega)]
    exact Option.isSome_iff_exists.mp htrue
  refine ⟨?_, ?_, ?_⟩
  · intro h0
    have ht0 : st'.t_pos = none := hzero 'T' st'.t_pos hts h0
    simp only [Game.from_board]
    rw [if_neg (by simpa using hne), if_neg (by omega), hok]
    simp only [ht0]
  · intro h1 h0
    obtain ⟨⟨tr, tc⟩, htp⟩ := hsome 'T' st'.t_pos hts h1
    have hm0 : st'.m_pos = none := hzero 'M' st'.m_pos hms h0
    simp only [Game.from_board]
    rw [if_neg (by simpa using hne), if_neg (by omega), hok]
    simp only [htp, hm0]
  · intro h1 h2 h0
    obtain ⟨⟨tr, tc⟩, htp⟩ := hsome 'T' st'.t_pos hts h1
    obtain ⟨⟨mr, mc⟩, hmp⟩ := hsome 'M' st'.m_pos hms h2
    have hg0 : st'.g_pos = none := hzero 'G' st'.g_pos hgs h0
    simp only [Game.from_board]
    rw [if_neg (by simpa using hne), if_neg (by omega), hok]
    simp only [htp, hmp, hg0]

lemma scanChars_error_ne_invalidSize (chars : List Char) :
    ∀ (r c : Nat) (st : ScanState) (e : BoardError),
    scanChars r c chars st = .error e → e ≠ .InvalidSize := by
  induction chars with
  | nil =>
    intro r c st e h
    simp [scanChars] at h
  | cons ch rest ih =>
    intro r c st e h
    rw [scanChars_cons] at h
    split_ifs at h <;>
      first
      | exact ih _ _ _ _ h
      | (cases h; simp)

lemma scanLines_error_ne_invalidSize (ls : List (List Char)) :
    ∀ (width r : Nat) (st : ScanState) (e : BoardError),
    (∀ l ∈ ls, l.length = width) →
    scanLines width r ls st = .error e → e ≠ .InvalidSize := by
  induction ls with
  | nil =>
    intro width r st e _ h
    simp [scanLines] at h
  | cons l rest ih =>
    intro width r st e hw h
    rw [scanLines_cons,
      if_neg (by simp [hw l (List.mem_cons_self l rest)])] at h
    rcases hsc : scanChars r 0 l st with e2 | st1 <;> rw [hsc] at h
    · simp only [Except.error.injEq] at h
      subst h
      exact scanChars_error_ne_invalidSize l r 0 st e2 hsc
    · exact ih width (r + 1) st1 e
        (fun x hx => hw x (List.mem_cons_of_mem l hx)) h

lemma from_board_invalidSize_sources (ls : List (List Char))
    (h : Game.from_board ls = .error .InvalidSize) :
    ls = [] ∨ (ls.headD []).length = 0 ∨
      ∃ l ∈ ls, l.length ≠ (ls.headD []).length := by
  by_contra hcon
  push_neg at hcon
  obtain ⟨hne, hwz, hrect⟩ := hcon
  simp only [Game.from_board] at h
  rw [if_neg (by simpa using hne), if_neg hwz] at h
  rcases hs : scanLines (ls.headD []).length 0 ls ⟨[], none, none, none⟩
    with e | st <;> rw [hs] at h
  · simp only [Except.error.injEq] at h
    exact scanLines_error_ne_invalidSize ls _ 0 _ e hrect hs h
  · rcases htp : st.t_pos with _ | p1
    · simp [htp] at h
    · obtain ⟨tr, tc⟩ := p1
      rcases hmp : st.m_pos with _ | p2
      · simp [htp, hmp] at h
      · obtain ⟨mr, mc⟩ := p2
        rcases hgp : st.g_pos with _ | p3
        · simp [htp, hmp, hgp] at h
        · obtain ⟨gr, gc⟩ := p3
          simp [htp, hmp, hgp] at h

lemma from_board_invalidSize_of_mismatch (pre : List (List Char))
    (bad : List Char) (post : List (List Char)) (width : Nat)
    (hwd : ((pre ++ bad :: post).headD []).length = width)
    (hwpos : 0 < width)
    (hpre : ∀ l ∈ pre, l.length = width)
    (hv : ∀ l ∈ pre, ∀ ch ∈ l, validChar ch)
    (hct : (pre.map (List.count 'T')).sum ≤ 1)
    (hcm : (pre.map (List.count 'M')).sum ≤ 1)
    (hcg : (pre.map (List.count 'G')).sum ≤ 1)
    (hbad : bad.length ≠ width) :
    Game.from_board (pre ++ bad :: post) = .error .InvalidSize := by
  obtain ⟨st1, hok1, _, _, _, _, _, _, _⟩ :=
    scanLines_ok_spec pre width 0 ⟨[], none, none, none⟩ hpre hv
      (by simp [countOpt]; omega) (by simp [countOpt]; omega)
      (by simp [countOpt]; omega)
  apply from_board_error_of_scanLines
  · cases pre <;> simp
  · rw [hwd]; omega
  · rw [hwd, scanLines_append, hok1]
    show scanLines width (0 + pre.length) (bad :: post) st1 = _
    rw [scanLines_cons, if_pos hbad]

/-! Claim theorems. -/

lemma minotaur_vertical_eq (g : Game) :
    g.minotaur_vertical = minotaur_vertical_spec g := by
  obtain ⟨grid, tr, tc, mr, mc, qr, qc⟩ := g
  have hmc : ((mc : Int)).toNat = mc := by omega
  have hsub : ((mr : Int) - 1).toNat = mr - 1 := by omega
  have hadd : ((mr : Int) + 1).toNat = mr + 1 := by omega
  simp only [Game.minotaur_vertical, minotaur_vertical_spec, try_move, hmc,
    hsub, hadd]
  split_ifs <;> simp_all <;> omega

/-- C2: `minotaur_move` implements exactly the spec's two-axis greedy rule:
a horizontal step toward Theseus is attempted first whenever the columns
differ and taken iff in bounds and not a wall; the vertical step is attempted
only when the columns are equal or the horizontal step was blocked; otherwise
the Minotaur stays put. -/
theorem minotaur_move_matches_spec (g : Game) :
    g.minotaur_move = minotaur_move_spec g := by
  obtain ⟨grid, tr, tc, mr, mc, qr, qc⟩ := g
  have hmr : ((mr : Int)).toNat = mr := by omega
  have hsub : ((mc : Int) - 1).toNat = mc - 1 := by omega
  have hadd : ((mc : Int) + 1).toNat = mc + 1 := by omega
  simp only [Game.minotaur_move, minotaur_move_spec, try_move, hmr, hsub,
    hadd, minotaur_vertical_eq]
  split_ifs <;> simp_all <;> omega

/-- C3: `theseus_move` adds the command's unit delta to the position, rejects
the candidate silently when it is out of bounds or a wall, and otherwise moves
to it; in particular `Skip` never changes the position. -/
theorem theseus_move_matches_spec (g : Game) (command : Command) :
    g.theseus_move command = theseus_move_spec g command ∧
      g.theseus_move Command.Skip = g := by
  obtain ⟨grid, tr, tc, mr, mc, qr, qc⟩ := g
  constructor
  · cases command <;>
      simp only [Game.theseus_move, theseus_move_spec, Grid.in_bounds] <;>
      split_ifs <;>
      simp_all <;>
      omega
  · simp only [Game.theseus_move, Grid.in_bounds]
    split_ifs <;> simp_all

/-- C4: `status` returns Lose iff Theseus and the Minotaur coincide, Win iff
they do not and Theseus is on the Goal, Continue otherwise; when Theseus
coincides with both the Minotaur and the Goal the result is Lose (the Lose
check precedes the Win check). -/
theorem status_check_order (g : Game) :
    (g.status = .Lose ↔
      (g.theseus_row = g.minotaur_row ∧ g.theseus_col = g.minotaur_col)) ∧
    (g.status = .Win ↔
      (¬(g.theseus_row = g.minotaur_row ∧ g.theseus_col = g.minotaur_col) ∧
        g.theseus_row = g.goal_row ∧ g.theseus_col = g.goal_col)) ∧
    (g.status = .Continue ↔
      (¬(g.theseus_row = g.minotaur_row ∧ g.theseus_col = g.minotaur_col) ∧
        ¬(g.theseus_row = g.goal_row ∧ g.theseus_col = g.goal_col))) ∧
    ((g.theseus_row = g.minotaur_row ∧ g.theseus_col = g.minotaur_col) ∧
        (g.theseus_row = g.goal_row ∧ g.theseus_col = g.goal_col) →
      g.status = .Lose) := by
  unfold Game.status
  split_ifs <;> simp_all

theorem status_check_order_witness :
    Game.status gameCoincide = GameStatus.Lose :=
  (status_check_order gameCoincide).2.2.2 ⟨⟨rfl, rfl⟩, rfl, rfl⟩

/-- C9: under the size invariant, `Grid.get` returns the stored tile for
in-bounds coordinates (and the underlying cell lookup cannot miss, i.e. the
Rust indexing cannot panic), returns `none` out of bounds, and the derived
predicates return `false` out of bounds. -/
theorem grid_get_total (g : Grid) (hinv : g.cells.length = g.width * g.height)
    (row col : Nat) :
    (row < g.height → col < g.width →
      ∃ t, g.cells[row * g.width + col]? = some t ∧ g.get row col = some t) ∧
    (¬(row < g.height ∧ col < g.width) →
      g.get row col = none ∧ g.is_wall row col = false ∧
        g.is_goal row col = false ∧ g.is_empty row col = false) := by
  constructor
  · intro hr hc
    have hidx : row * g.width + col < g.cells.length := by
      rw [hinv]
      calc row * g.width + col < (row + 1) * g.width := by
            rw [Nat.succ_mul]; omega
        _ ≤ g.height * g.width := Nat.mul_le_mul_right _ hr
        _ = g.width * g.height := Nat.mul_comm _ _
    refine ⟨g.cells.get ⟨row * g.width + col, hidx⟩, ?_, ?_⟩
    · simp [List.getElem?_eq_getElem hidx]
    · unfold Grid.get Grid.idx Grid.in_bounds
      simp [hr, hc, List.getElem?_eq_getElem hidx]
  · intro h
    have hb : g.in_bounds row col = false := by
      simp only [Grid.in_bounds, Bool.and_eq_false_iff, decide_eq_false_iff_not]
      omega
    unfold Grid.is_wall Grid.is_goal Grid.is_empty Grid.get Grid.idx
    simp [hb]

theorem grid_get_total_witness :
    (∃ t, gridW.cells[0 * gridW.width + 1]? = some t ∧
      gridW.get 0 1 = some t) ∧
    (gridW.get 5 0 = none ∧ gridW.is_wall 5 0 = false ∧
      gridW.is_goal 5 0 = false ∧ gridW.is_empty 5 0 = false) := by
  have h1 := grid_get_total gridW (by decide) 0 1
  have h2 := grid_get_total gridW (by decide) 5 0
  exact ⟨h1.1 (by decide) (by decide), h2.2 (by decide)⟩

/-- C10: when the entity positions are in bounds, all four game-level queries
return `false` at an out-of-bounds coordinate, so `is_empty` returns `true`
there: out of bounds is indistinguishable from empty floor at this
interface. -/
theorem out_of_bounds_queries (g : Game)
    (ht : g.grid.in_bounds g.theseus_row g.theseus_col = true)
    (hm : g.grid.in_bounds g.minotaur_row g.minotaur_col = true)
    (row col : Nat) (hout : g.grid.in_bounds row col = false) :
    g.is_theseus row col = false ∧ g.is_minotaur row col = false ∧
      g.is_wall row col = false ∧ g.is_goal row col = false ∧
      g.is_empty row col = true := by
  simp only [Grid.in_bounds, Bool.and_eq_true, decide_eq_true_eq,
    Bool.and_eq_false_iff, decide_eq_false_iff_not] at ht hm hout
  have hwall : g.is_wall row col = false := by
    unfold Game.is_wall Grid.is_wall Grid.get Grid.idx Grid.in_bounds
    have hnb : ¬(row < g.grid.height ∧ col < g.grid.width) := by tauto
    simp only [Bool.and_eq_true, decide_eq_true_eq]
    rw [if_neg hnb]
    rfl
  have hgoal : g.is_goal row col = false := by
    unfold Game.is_goal Grid.is_goal Grid.get Grid.idx Grid.in_bounds
    have hnb : ¬(row < g.grid.height ∧ col < g.grid.width) := by tauto
    simp only [Bool.and_eq_true, decide_eq_true_eq]
    rw [if_neg hnb]
    rfl
  have hth : g.is_theseus row col = false := by
    simp only [Game.is_theseus, Bool.and_eq_false_iff, decide_eq_false_iff_not]
    omega
  have hmi : g.is_minotaur row col = false := by
    simp only [Game.is_minotaur, Bool.and_eq_false_iff, decide_eq_false_iff_not]
    omega
  refine ⟨hth, hmi, hwall, hgoal, ?_⟩
  simp [Game.is_empty, hth, hmi, hwall, hgoal]

theorem out_of_bounds_queries_witness :
    gameTMG.is_theseus 5 7 = false ∧ gameTMG.is_minotaur 5 7 = false ∧
      gameTMG.is_wall 5 7 = false ∧ gameTMG.is_goal 5 7 = false ∧
      gameTMG.is_empty 5 7 = true :=
  out_of_bounds_queries gameTMG (by decide) (by decide) 5 7 (by decide)

/-- C1: for rectangular, alphabet-respecting board text with exactly one each
of `T`, `M`, `G`, parsing succeeds, the three positions are the coordinates of
those markers, all three are in bounds and not on walls, and the static grid
stores the `T` and `M` cells as floor and the `G` cell as the goal. -/
theorem from_board_parse_valid (ls : List (List Char))
    (hne : ls ≠ [])
    (hrect : ∀ l ∈ ls, l.length = (ls.headD []).length)
    (hv : ∀ l ∈ ls, ∀ ch ∈ l, validChar ch)
    (ht : (ls.map (List.count 'T')).sum = 1)
    (hm : (ls.map (List.count 'M')).sum = 1)
    (hg : (ls.map (List.count 'G')).sum = 1) :
    ∃ game, Game.from_board ls = .ok game ∧
      game.grid.width = (ls.headD []).length ∧
      game.grid.height = ls.length ∧
      (∃ lt, ls[game.theseus_row]? = some lt ∧
        lt[game.theseus_col]? = some 'T') ∧
      (∃ lm, ls[game.minotaur_row]? = some lm ∧
        lm[game.minotaur_col]? = some 'M') ∧
      (∃ lg, ls[game.goal_row]? = some lg ∧
        lg[game.goal_col]? = some 'G') ∧
      game.grid.in_bounds game.theseus_row game.theseus_col = true ∧
      game.grid.in_bounds game.minotaur_row game.minotaur_col = true ∧
      game.grid.in_bounds game.goal_row game.goal_col = true ∧
      game.grid.is_wall game.theseus_row game.theseus_col = false ∧
      game.grid.is_wall game.minotaur_row game.minotaur_col = false ∧
      game.grid.is_wall game.goal_row game.goal_col = false ∧
      game.grid.get game.theseus_row game.theseus_col = some ' ' ∧
      game.grid.get game.minotaur_row game.minotaur_col = some ' ' ∧
      game.grid.get game.goal_row game.goal_col = some 'G' := by
  set width := (ls.headD []).length with hwdef
  have hwpos : 0 < width := by
    have hany : ls.any (·.contains 'T') = true :=
      (any_contains_iff_sum_pos ls 'T').mpr (by omega)
    rw [List.any_eq_true] at hany
    obtain ⟨l, hl, hcl⟩ := hany
    have hmm : 'T' ∈ l := by simpa using hcl
    have hlpos : 0 < l.length := List.length_pos.mpr (by rintro rfl; simp at hmm)
    rw [← hrect l hl] at hwdef
    omega
  obtain ⟨st', hok, hcells, hts, hms, hgs, hpt, hpm, hpg⟩ :=
    scanLines_ok_spec ls width 0 ⟨[], none, none, none⟩
      (fun l hl => hrect l hl) hv (by simp [countOpt]; omega)
      (by simp [countOpt]; omega) (by simp [countOpt]; omega)
  simp only [Option.isSome_none, Bool.false_or, List.nil_append,
    Nat.zero_add] at hts hms hgs hpt hpm hpg hcells
  have hanyT : ls.any (·.contains 'T') = true :=
    (any_contains_iff_sum_pos ls 'T').mpr (by omega)
  have hanyM : ls.any (·.contains 'M') = true :=
    (any_contains_iff_sum_pos ls 'M').mpr (by omega)
  have hanyG : ls.any (·.contains 'G') = true :=
    (any_contains_iff_sum_pos ls 'G').mpr (by omega)
  rw [hanyT] at hts
  rw [hanyM] at hms
  rw [hanyG] at hgs
  obtain ⟨⟨tr, tc⟩, hptEq⟩ := Option.isSome_iff_exists.mp hts
  obtain ⟨⟨mr, mc⟩, hpmEq⟩ := Option.isSome_iff_exists.mp hms
  obtain ⟨⟨gr, gc⟩, hpgEq⟩ := Option.isSome_iff_exists.mp hgs
  have hfb : Game.from_board ls =
      .ok ⟨⟨width, ls.length, st'.cells⟩, tr, tc, mr, mc, gr, gc⟩ := by
    have h1 : ¬(ls.isEmpty = true) := by simp [hne]
    simp only [Game.from_board]
    rw [← hwdef, if_neg h1, if_neg (by omega : ¬(width = 0)), hok]
    simp only [hptEq, hpmEq, hpgEq]
  have key : ∀ (row col : Nat) (mark : Char),
      (∃ i l, ls[i]? = some l ∧ l[col]? = some mark ∧ row = i) →
      (∃ lx, ls[row]? = some lx ∧ lx[col]? = some mark) ∧
        row < ls.length ∧ col < width ∧
        ((ls.map (List.map cellOf)).flatten)[row * width + col]? =
          some (cellOf mark) := by
    rintro row col mark ⟨i, l, hli, hlc, hri⟩
    subst hri
    have hmem : l ∈ ls := mem_of_getElem? hli
    have hrow : row < ls.length := (List.getElem?_eq_some.mp hli).1
    have hcol : col < width := by
      have h2 := (List.getElem?_eq_some.mp hlc).1
      rw [← hrect l hmem]; exact h2
    refine ⟨⟨l, hli, hlc⟩, hrow, hcol, ?_⟩
    rw [flatten_map_getElem ls width hrect row col l hli hcol, hlc]
    rfl
  obtain ⟨hltE, hltR, hltC, hltF⟩ :=
    key tr tc 'T' (by simpa using hpt (tr, tc) hptEq)
  obtain ⟨hlmE, hlmR, hlmC, hlmF⟩ :=
    key mr mc 'M' (by simpa using hpm (mr, mc) hpmEq)
  obtain ⟨hlgE, hlgR, hlgC, hlgF⟩ :=
    key gr gc 'G' (by simpa using hpg (gr, gc) hpgEq)
  refine ⟨⟨⟨width, ls.length, st'.cells⟩, tr, tc, mr, mc, gr, gc⟩, hfb,
    rfl, rfl, hltE, hlmE, hlgE, ?_, ?_, ?_, ?_, ?_, ?_, ?_, ?_, ?_⟩ <;>
    simp [Grid.in_bounds, Grid.is_wall, Grid.is_goal, Grid.get, Grid.idx,
      hltR, hltC, hlmR, hlmC, hlgR, hlgC, hcells, hltF, hlmF, hlgF, cellOf]

theorem from_board_parse_valid_witness :
    ∃ game, Game.from_board [['T', 'M', 'G']] = .ok game ∧
      game.grid.width = ([['T', 'M', 'G']].headD []).length ∧
      game.grid.height = [['T', 'M', 'G']].length ∧
      (∃ lt, [['T', 'M', 'G']][game.theseus_row]? = some lt ∧
        lt[game.theseus_col]? = some 'T') ∧
      (∃ lm, [['T', 'M', 'G']][game.minotaur_row]? = some lm ∧
        lm[game.minotaur_col]? = some 'M') ∧
      (∃ lg, [['T', 'M', 'G']][game.goal_row]? = some lg ∧
        lg[game.goal_col]? = some 'G') ∧
      game.grid.in_bounds game.theseus_row game.theseus_col = true ∧
      game.grid.in_bounds game.minotaur_row game.minotaur_col = true ∧
      game.grid.in_bounds game.goal_row game.goal_col = true ∧
      game.grid.is_wall game.theseus_row game.theseus_col = false ∧
      game.grid.is_wall game.minotaur_row game.minotaur_col = false ∧
      game.grid.is_wall game.goal_row game.goal_col = false ∧
      game.grid.get game.theseus_row game.theseus_col = some ' ' ∧
      game.grid.get game.minotaur_row game.minotaur_col = some ' ' ∧
      game.grid.get game.goal_row game.goal_col = some 'G' :=
  from_board_parse_valid [['T', 'M', 'G']] (by decide) (by decide) (by decide)
    (by decide) (by decide) (by decide)

/-- C5: the in-bounds, not-on-a-wall invariant of the three positions holds
for every successfully parsed game and is preserved by `theseus_move` (any
command) and by `minotaur_move`. -/
theorem game_invariant_preserved (ls : List (List Char)) (g : Game)
    (cmd : Command) :
    (Game.from_board ls = .ok g → g.posInvariant) ∧
    (g.posInvariant → (g.theseus_move cmd).posInvariant) ∧
    (g.posInvariant → g.minotaur_move.posInvariant) :=
  ⟨from_board_posInvariant ls g, theseus_move_posInvariant g cmd,
    minotaur_move_posInvariant g⟩

theorem game_invariant_preserved_witness :
    Game.posInvariant gameTMG ∧
      Game.posInvariant (gameTMG.theseus_move Command.Right) ∧
      Game.posInvariant gameTMG.minotaur_move := by
  have h := game_invariant_preserved [['T', 'M', 'G']] gameTMG Command.Right
  have hInv : Game.posInvariant gameTMG := h.1 (by decide)
  exact ⟨hInv, h.2.1 hInv, h.2.2 hInv⟩

/-- C6: a second occurrence of a marker, first in scan order after a clean
prefix, fails with the corresponding Multiple error regardless of what
follows it; and on a fully clean scan the missing-marker checks fire in the
fixed order NoTheseus, then NoMinotaur, then NoGoal. -/
theorem duplicate_then_missing_order :
    (∀ (pre : List (List Char)) (row rest : List Char)
        (post : List (List Char)) (m : Char),
      m = 'T' ∨ m = 'M' ∨ m = 'G' →
      (∀ l ∈ pre, l.length = row.length + 1 + rest.length) →
      (∀ ch ∈ pre.flatten ++ row, validChar ch) →
      List.count m (pre.flatten ++ row) = 1 →
      List.count 'T' (pre.flatten ++ row) ≤ 1 →
      List.count 'M' (pre.flatten ++ row) ≤ 1 →
      List.count 'G' (pre.flatten ++ row) ≤ 1 →
      Game.from_board (pre ++ (row ++ m :: rest) :: post) =
        .error (markerDupError m)) ∧
    (∀ ls : List (List Char), ls ≠ [] →
      (∀ l ∈ ls, l.length = (ls.headD []).length) →
      0 < (ls.headD []).length →
      (∀ l ∈ ls, ∀ ch ∈ l, validChar ch) →
      (ls.map (List.count 'T')).sum ≤ 1 →
      (ls.map (List.count 'M')).sum ≤ 1 →
      (ls.map (List.count 'G')).sum ≤ 1 →
      (((ls.map (List.count 'T')).sum = 0 →
        Game.from_board ls = .error .NoTheseus) ∧
      ((ls.map (List.count 'T')).sum = 1 →
        (ls.map (List.count 'M')).sum = 0 →
        Game.from_board ls = .error .NoMinotaur) ∧
      ((ls.map (List.count 'T')).sum = 1 →
        (ls.map (List.count 'M')).sum = 1 →
        (ls.map (List.count 'G')).sum = 0 →
        Game.from_board ls = .error .NoGoal))) :=
  ⟨from_board_duplicate,
    fun ls h1 h2 h3 h4 h5 h6 h7 => from_board_missing ls h1 h2 h3 h4 h5 h6 h7⟩

theorem duplicate_then_missing_order_witness :
    Game.from_board [['G', 'G']] = .error .MultipleGoal ∧
      Game.from_board [['X']] = .error .NoTheseus := by
  constructor
  · exact duplicate_then_missing_order.1 [] ['G'] [] [] 'G'
      (Or.inr (Or.inr rfl)) (by simp) (by decide) (by decide) (by decide)
      (by decide) (by decide)
  · exact (duplicate_then_missing_order.2 [['X']] (by decide) (by decide)
      (by decide) (by decide) (by decide) (by decide) (by decide)).1 (by decide)

/-- C7 counterexample: on the board with lines `A` and `XX` the second line's
width differs from the first line's, yet parsing reports the earlier
character error `InvalidCharacter 'A'`, not `InvalidSize` as the claim
requires. -/
theorem invalidSize_step_order_cex :
    Game.from_board [['A'], ['X', 'X']] = .error (.InvalidCharacter 'A') ∧
      Game.from_board [['A'], ['X', 'X']] ≠ .error .InvalidSize := by
  constructor
  · decide
  · decide

/-- C7 (amended): `InvalidSize` arises only for zero lines, a zero-width
first line, or a width-mismatched line; conversely it is reported for zero
lines, for a zero-width first line, and for a mismatched line all of whose
preceding lines are width-correct and scan cleanly — each row's width check
precedes that row's character scan but follows the scan of earlier rows. -/
theorem invalidSize_characterization :
    (∀ ls : List (List Char), Game.from_board ls = .error .InvalidSize →
      ls = [] ∨ (ls.headD []).length = 0 ∨
        ∃ l ∈ ls, l.length ≠ (ls.headD []).length) ∧
    (Game.from_board [] = .error .InvalidSize) ∧
    (∀ ls : List (List Char), ls ≠ [] → (ls.headD []).length = 0 →
      Game.from_board ls = .error .InvalidSize) ∧
    (∀ (pre : List (List Char)) (bad : List Char) (post : List (List Char))
        (width : Nat), ((pre ++ bad :: post).headD []).length = width →
      0 < width → (∀ l ∈ pre, l.length = width) →
      (∀ l ∈ pre, ∀ ch ∈ l, validChar ch) →
      (pre.map (List.count 'T')).sum ≤ 1 →
      (pre.map (List.count 'M')).sum ≤ 1 →
      (pre.map (List.count 'G')).sum ≤ 1 →
      bad.length ≠ width →
      Game.from_board (pre ++ bad :: post) = .error .InvalidSize) := by
  refine ⟨from_board_invalidSize_sources, rfl, ?_,
    from_board_invalidSize_of_mismatch⟩
  intro ls hne hw0
  simp only [Game.from_board]
  rw [if_neg (by simpa using hne), if_pos hw0]

theorem invalidSize_characterization_witness :
    Game.from_board [['X'], ['X', 'X']] = .error .InvalidSize :=
  invalidSize_characterization.2.2.2 [['X']] ['X', 'X'] [] 1 (by decide)
    (by decide) (by decide) (by decide) (by decide) (by decide) (by decide)
    (by decide)

/-- C8: the decoder trims and lowercases the line and then applies the spec's
table; end-of-stream decodes to no command, and the listed literals decode as
the table says, with `quit` and unrecognized text both yielding no command. -/
theorem input_decode_table :
    (input none = none) ∧
    (∀ l : List Char, input (some l) = decode_spec (strToLower (strTrim l))) ∧
    input (some ['w']) = some Command.Up ∧
    input (some ['W']) = some Command.Up ∧
    input (some ['u', 'p']) = some Command.Up ∧
    input (some [' ', 'U', 'P', ' ']) = some Command.Up ∧
    input (some ['s']) = some Command.Down ∧
    input (some ['d', 'o', 'w', 'n']) = some Command.Down ∧
    input (some ['a']) = some Command.Left ∧
    input (some ['l', 'e', 'f', 't']) = some Command.Left ∧
    input (some ['d']) = some Command.Right ∧
    input (some ['r', 'i', 'g', 'h', 't']) = some Command.Right ∧
    input (some []) = some Command.Skip ∧
    input (some ['w', 'a', 'i', 't']) = some Command.Skip ∧
    input (some ['s', 'k', 'i', 'p']) = some Command.Skip ∧
    input (some ['.']) = some Command.Skip ∧
    input (some ['q']) = none ∧
    input (some ['q', 'u', 'i', 't']) = none ∧
    input (some ['e', 'x', 'i', 't']) = none ∧
    input (some ['x', 'y', 'z', 'z', 'y']) = none := by
  refine ⟨rfl, fun l => rfl, ?_, ?_, ?_, ?_, ?_, ?_, ?_, ?_, ?_, ?_, ?_, ?_,
    ?_, ?_, ?_, ?_, ?_, ?_⟩ <;> decide

end Maze
